import Mathlib

/-!
Verification of the character-roulette application against its
natural-language specification.

The state-management layer (`state.js`, concatenated inside `src/sw.js`),
the service worker (`src/sw.js` lines 1-37 and the second version in
`src/unnamed/part_000`), and the entry point (`main.js`) are embedded
directly from the source.  The Segment Wheel, Weighted Selector and
Animation Controller (`wheel.js` / `animation.js`) are imported by
`main.js` but their source is not part of the repository snapshot, so
they are modelled from the specification, as flagged on each definition.

JavaScript numbers are embedded as exact rationals (`ℚ`); a value that
is `NaN` after parsing is embedded as `none : Option ℚ`.
-/

namespace Roulette

/-! ## Weighted Selector (wheel core) -/

/-- Modelled from the spec: the `InvalidInput` failure condition of the
Weighted Selector (§4.1, §7); the selector's source (`wheel.js` /
`animation.js`) is not in the repository snapshot. -/
inductive SelectorError
  | InvalidInput
deriving DecidableEq

/-- Modelled from the spec: the cumulative-sum scan of the Weighted
Selector (§4.1) — walk the weight buckets and return the index of the
half-open bucket containing the target value. -/
def selectScan : List ℚ → ℚ → Option Nat
  | [], _ => none
  | w :: ws, t => if t < w then some 0 else (selectScan ws (t - w)).map (fun i => i + 1)

/-- Modelled from the spec: the Weighted Selector (§4.1) — given weights
and a uniform draw `u ∈ [0,1)`, select the index whose cumulative bucket
contains `u * sum(weights)`; fail with `InvalidInput` when the sequence
is empty or all weights are zero.  The selector's source is not in the
repository snapshot. -/
def selectIndex (ws : List ℚ) (u : ℚ) : Except SelectorError Nat :=
  if ws = [] ∨ ∀ w ∈ ws, w = 0 then Except.error SelectorError.InvalidInput
  else Except.ok ((selectScan ws (u * ws.sum)).getD (ws.length - 1))

/-! ## Segment Wheel -/

/-- An entry handed to the wheel core: a name and a normalized weight
(spec §3; produced by `getActiveEntries` in `state.js`). -/
structure Entry where
  name : String
  weight : ℚ
deriving DecidableEq, Inhabited

/-- Modelled from the spec: a Segment (§3) — an entry together with its
half-open angular arc, in full-turn units (one full turn = `1`). -/
structure Segment where
  entry : Entry
  startAngle : ℚ
  endAngle : ℚ
deriving DecidableEq

/-- Modelled from the spec: cumulative segment layout (§4.2) — each
entry receives the arc `[acc/W, (acc+weight)/W)` where `acc` is the sum
of the weights before it and `W` the total weight. -/
def segmentsFrom (W : ℚ) : List Entry → ℚ → List Segment
  | [], _ => []
  | e :: es, acc =>
    ⟨e, acc / W, (acc + e.weight) / W⟩ :: segmentsFrom W es (acc + e.weight)

/-- Modelled from the spec: `rebuild` segment construction (§4.2) —
contiguous arcs proportional to `weight / sum(weights)`, ordered as the
input snapshot.  The wheel source is not in the repository snapshot. -/
def buildSegments (entries : List Entry) : List Segment :=
  segmentsFrom ((entries.map Entry.weight).sum) entries 0

/-- Angular widths of a segment list (used as selector weights by
`start`, spec §4.3). -/
def segWidths (segs : List Segment) : List ℚ :=
  segs.map (fun s => s.endAngle - s.startAngle)

/-- Modelled from the spec: angle normalization into `[0, 1)` full
turns (§4.2 `resolveAngle` normalizes into one full turn). -/
def normAngle (θ : ℚ) : ℚ := θ - (⌊θ⌋ : ℚ)

/-- Scan a segment list for the first segment whose half-open arc
`[startAngle, endAngle)` contains the angle (spec §4.2 tie-break: a
boundary angle belongs to the segment that starts there). -/
def findSegment : List Segment → ℚ → Option Segment
  | [], _ => none
  | s :: ss, θ =>
    if s.startAngle ≤ θ ∧ θ < s.endAngle then some s else findSegment ss θ

/-- Modelled from the spec: `resolveAngle` (§4.2) — normalize the angle
into one full turn and return the segment containing it.  The wheel
source is not in the repository snapshot. -/
def resolveAngle (segs : List Segment) (θ : ℚ) : Option Segment :=
  findSegment segs (normAngle θ)

/-- Modelled from the spec: the landing angle chosen in `start` (§4.3) —
a point picked uniformly within the target segment's arc via the second
random draw `u2 ∈ [0,1)`. -/
def landingOf (seg : Segment) (u2 : ℚ) : ℚ :=
  seg.startAngle + u2 * (seg.endAngle - seg.startAngle)

/-- Modelled from the spec: Wheel State (§3) — the ordered segment
sequence owned by the Segment Wheel. -/
structure SWheel where
  segments : List Segment

/-- Modelled from the spec: the `hasSegments` query (§4.2) — true iff
the last `rebuild` received at least one entry. -/
def SWheel.hasSegments (w : SWheel) : Bool := !w.segments.isEmpty

/-! ## Animation Controller -/

/-- Modelled from the spec: the controller states (§4.3),
`Idle → Spinning → Decelerating → Settled`. -/
inductive Phase
  | Idle
  | Spinning
  | Decelerating
  | Settled
deriving DecidableEq

/-- Modelled from the spec: the two notification channels (§6) — a
state-change notification carrying `(isRunning, stopEnabled)` and a
one-shot winner notification. -/
inductive SWEvent
  | stateChange (running : Bool) (stopEnabled : Bool)
  | winner (e : Entry)
deriving DecidableEq

/-- Modelled from the spec: the effective `{total, decel}` durations
returned by `start` (§4.3, §6). -/
structure Schedule where
  total : ℚ
  decel : ℚ
deriving DecidableEq

/-- Modelled from the spec: the configured minimum/maximum duration
bounds used by the clamping in `start` (§4.3). -/
structure DurCfg where
  minDur : ℚ
  maxDur : ℚ
deriving DecidableEq

/-- Modelled from the spec: clamp one duration hint into the configured
minimum/maximum bounds (§4.3). -/
def clampDur (cfg : DurCfg) (x : ℚ) : ℚ :=
  max cfg.minDur (min cfg.maxDur x)

/-- Modelled from the spec: normalize the two duration hints into a
runnable schedule (§4.3) — both clamped to the configured bounds, and
`decel` additionally clamped to be `≤ total`. -/
def normalizeDurations (cfg : DurCfg) (totalHint decelHint : ℚ) : Schedule :=
  ⟨clampDur cfg totalHint, min (clampDur cfg decelHint) (clampDur cfg totalHint)⟩

/-- Modelled from the spec: the Animation Run state (§3) — the phase,
the pre-committed target index and landing angle, the normalized
schedule, and the elapsed time at which an early deceleration was
requested (if any). -/
structure Controller where
  phase : Phase
  target : Option Nat
  landing : Option ℚ
  sched : Option Schedule
  decelAt : Option ℚ
deriving DecidableEq

/-- The controller before any run: `Idle`, nothing committed. -/
def Controller.idle : Controller := ⟨Phase.Idle, none, none, none, none⟩

/-- Modelled from the spec: `start` (§4.3) — a silent no-op when the
wheel has no segments or the controller is mid-run; otherwise it
normalizes the duration hints, applies the Weighted Selector over the
current segment widths with the first random draw `u1` to pre-commit
the target entry, picks the landing angle inside the target arc with
the second draw `u2`, transitions to `Spinning`, emits a state-change
notification, and returns the effective schedule.  The controller
source is not in the repository snapshot. -/
def Controller.start (cfg : DurCfg) (w : SWheel) (c : Controller)
    (u1 u2 totalHint decelHint : ℚ) :
    Controller × Option Schedule × List SWEvent :=
  if w.hasSegments = false then (c, none, [])
  else if c.phase = Phase.Spinning ∨ c.phase = Phase.Decelerating then (c, none, [])
  else
    match selectIndex (segWidths w.segments) u1 with
    | Except.error _ => (c, none, [])
    | Except.ok i =>
      match w.segments[i]? with
      | none => (c, none, [])
      | some seg =>
        (⟨Phase.Spinning, some i, some (landingOf seg u2),
          some (normalizeDurations cfg totalHint decelHint), none⟩,
         some (normalizeDurations cfg totalHint decelHint),
         [SWEvent.stateChange true true])

/-- Modelled from the spec: `requestDecel` (§4.3) — valid only from
`Spinning` (a no-op from any other state); re-normalizes the hint,
records when deceleration began, transitions to `Decelerating`, and
emits a state-change notification with `stopEnabled = false`.  The
pre-committed target and landing angle are untouched. -/
def Controller.requestDecel (cfg : DurCfg) (c : Controller)
    (elapsed hint : ℚ) : Controller × List SWEvent :=
  if c.phase = Phase.Spinning then
    ({ c with
        phase := Phase.Decelerating
        sched := some ⟨(c.sched.map Schedule.total).getD 0,
                       min (clampDur cfg hint) ((c.sched.map Schedule.total).getD 0)⟩
        decelAt := some elapsed },
     [SWEvent.stateChange true false])
  else (c, [])

/-- Modelled from the spec: the automatic entry into `Decelerating` at
the scheduled time when no early stop was requested (§4.3 tick). -/
def autoDecel (c : Controller) : Controller :=
  if c.phase = Phase.Spinning then { c with phase := Phase.Decelerating } else c

/-- Modelled from the spec: finalize (§4.3) — when the deceleration
reaches its scheduled end, set the rotation exactly to the
pre-committed landing angle, ask the Segment Wheel to resolve it, move
to `Settled`, and notify the winner.  Returns the entry resolved by the
Segment Wheel. -/
def Controller.finalize (w : SWheel) (c : Controller) :
    Controller × Option Entry × List SWEvent :=
  if c.phase = Phase.Decelerating then
    match c.landing with
    | some θ =>
      match (resolveAngle w.segments θ).map Segment.entry with
      | some e => ({ c with phase := Phase.Settled }, some e, [SWEvent.winner e])
      | none => ({ c with phase := Phase.Settled }, none, [])
    | none => (c, none, [])
  else (c, none, [])

/-- Modelled from the spec: one whole animation run (§2 control flow) —
build the wheel from the entry snapshot, `start`, optionally issue
`requestDecel` at some elapsed time with some hint, decelerate, and
finalize.  Returns the entry resolved by the Segment Wheel at
finalize. -/
def runAnimation (cfg : DurCfg) (entries : List Entry)
    (u1 u2 totalHint decelHint : ℚ) (req : Option (ℚ × ℚ)) : Option Entry :=
  match Controller.start cfg ⟨buildSegments entries⟩ Controller.idle u1 u2 totalHint decelHint with
  | (_, none, _) => none
  | (c1, some _, _) =>
    (Controller.finalize ⟨buildSegments entries⟩
      (autoDecel (match req with
        | some r => (Controller.requestDecel cfg c1 r.1 r.2).1
        | none => c1))).2.1

/-- The target entry committed when `start` was called (spec §4.3). -/
def committedTarget (cfg : DurCfg) (entries : List Entry)
    (u1 u2 totalHint decelHint : ℚ) : Option Entry :=
  ((Controller.start cfg ⟨buildSegments entries⟩ Controller.idle u1 u2 totalHint decelHint).1.target).bind
    (fun i => entries[i]?)

/-! ## State management (`state.js`, embedded from the source) -/

/-- `normalizeWeightValue` from `state.js`: a parsed value (`none` when
the input is `NaN` after parsing) is defaulted to `1`, then clamped
into `[0.1, 10]`. -/
def normalizeWeightValue (value : Option ℚ) : ℚ :=
  let num0 := match value with | some q => q | none => 1
  let num1 := if num0 < 1/10 then 1/10 else num0
  if num1 > 10 then 10 else num1

/-- The shared application state of `state.js`: the ordered name list
and the `on` / `weight` records (a missing record key is embedded as
`false` / `none`, matching JavaScript's falsy `undefined`). -/
structure AppState where
  names : List String
  onMap : String → Bool
  weight : String → Option ℚ

/-- The loop body of `getActiveEntries` from `state.js`. -/
def getActiveEntriesGo (s : AppState) : List String → List Entry
  | [] => []
  | n :: ns =>
    if s.onMap n then ⟨n, normalizeWeightValue (s.weight n)⟩ :: getActiveEntriesGo s ns
    else getActiveEntriesGo s ns

/-- `getActiveEntries` from `state.js`: the enabled names in order,
each with its normalized weight. -/
def getActiveEntries (s : AppState) : List Entry :=
  getActiveEntriesGo s s.names

/-- JavaScript `String.prototype.trim`, embedded structurally over the
character list: drop leading and trailing whitespace. -/
def jsTrim (s : String) : String :=
  ⟨(((s.data.dropWhile Char.isWhitespace).reverse.dropWhile Char.isWhitespace).reverse)⟩

/-- `addCharacter` from `state.js`: rejects names that trim to the
empty string, otherwise appends the trimmed name, enables it and stores
its normalized weight.  The nullish input is embedded as
`Option String`. -/
def addCharacter (s : AppState) (name : Option String) (w : Option ℚ) :
    Bool × AppState :=
  let trimmed := jsTrim (name.getD "")
  if trimmed = "" then (false, s)
  else
    (true,
     ⟨s.names ++ [trimmed],
      fun n => if n = trimmed then true else s.onMap n,
      fun n => if n = trimmed then some (normalizeWeightValue w) else s.weight n⟩)

/-- The `OMG` preset list from `state.js`. -/
def omgList : List String :=
  ["テムジン","バイパ－Ⅱ","ドルカス","ベルグドル","バルバスバウ","アファームド","フェイ","ライデン"]

/-- The `オラタン` preset list from `state.js`. -/
def oratanList : List String :=
  ["ライデン","シュタイン","グリス","テムジン","テンパチ","バル","エンジェ","アジム","スぺ","コマンダー","バトラー","ストライカー","サイファー","フェイ","ドル"]

/-- The `フォース` preset list from `state.js`. -/
def forceList : List String :=
  ["TEMJIN系列","RAIDEN系列","VOX系列","BAL系列","APHARMD J系列","APHARMD T系列","MYZR系列","SPECINEFF系列","景清系列","FEI-YEN系列","ANGELAN系列","GUARAYAKHA"]

/-- The `禁書VO` preset list from `state.js`. -/
def kinshoList : List String :=
  ["テムジン","バルルルーン","ライデン","スペシネフ","フェイ・イェン","エンジェラン","グリスボック","アファームドS","アファームドB","アファームドC","ドルドレイ","サイファー","バルバドス","ブルーストーカー"]

/-- The `PRESETS` record of `state.js`, in insertion order. -/
def PRESETS : List (String × List String) :=
  [("OMG", omgList), ("オラタン", oratanList), ("フォース", forceList), ("禁書VO", kinshoList)]

/-- Property lookup `PRESETS[key]` of `state.js` (`applyPreset` then
checks `Array.isArray`, so any non-preset key yields `none`). -/
def presetLookup (key : String) : Option (List String) :=
  if key = "OMG" then some omgList
  else if key = "オラタン" then some oratanList
  else if key = "フォース" then some forceList
  else if key = "禁書VO" then some kinshoList
  else none

/-- The state built by `applyPreset` from `state.js`: names are a copy
of the preset list, `Object.fromEntries` over the list gives `true` for
every listed name (`undefined`, embedded as `false` / `none`, for any
other), and weight `1` for every listed name. -/
def presetApplied (list : List String) : AppState :=
  ⟨list,
   fun n => list.contains n,
   fun n => if list.contains n then some 1 else none⟩

/-- `applyPreset` from `state.js`: replace the whole state with the
preset list, every listed name enabled with weight `1`; return `false`
and leave the state alone for an unknown key. -/
def applyPreset (s : AppState) (key : String) : Bool × AppState :=
  match presetLookup key with
  | none => (false, s)
  | some list => (true, presetApplied list)

/-- The per-preset match test inside `findMatchingPresetKey` from
`state.js`: same length, element-wise equal names, and every listed
name enabled with normalized weight exactly `1`. -/
def presetMatches (s : AppState) (list : List String) : Bool :=
  (list.length == s.names.length &&
   (list.zip s.names).all (fun p => p.1 == p.2)) &&
  list.all (fun n => s.onMap n && (normalizeWeightValue (s.weight n) == 1))

/-- The loop of `findMatchingPresetKey` over `Object.entries(PRESETS)`
in insertion order. -/
def matchGo (s : AppState) : List (String × List String) → Option String
  | [] => none
  | p :: rest => if presetMatches s p.2 then some p.1 else matchGo s rest

/-- `findMatchingPresetKey` from `state.js`: the first preset whose
list and enabled/weight state match the current state, else `none`. -/
def findMatchingPresetKey (s : AppState) : Option String :=
  matchGo s PRESETS

/-! ## Service worker fetch handler (embedded from the source) -/

/-- A response as far as the caching logic observes it: its `ok` status
and an abstract body tag. -/
structure Response where
  ok : Bool
  body : String
deriving DecidableEq

/-- A request as far as the caching logic observes it: method and
URL. -/
structure Req where
  method : String
  url : String
deriving DecidableEq

/-- The ambient environment of the fetch handler: the cache (keyed by
URL), the network (`none` models a rejected `fetch`), the URL → origin
map and the worker's own origin. -/
structure FetchEnv where
  cache : String → Option Response
  net : Req → Option Response
  urlOrigin : String → String
  selfOrigin : String

/-- `OFFLINE_URL` from the service worker. -/
def OFFLINE_URL : String := "./index.html"

/-- `cache.put` from the service worker: store the response under the
request URL. -/
def cachePut (cache : String → Option Response) (url : String) (r : Response) :
    String → Option Response :=
  fun u => if u = url then some r else cache u

/-- `handleRequest` from `src/unnamed/part_000` (equivalently the
inline fetch listener of `src/sw.js` lines 22-37): serve from cache
first; otherwise fetch from the network, caching successful same-origin
GET responses; on network failure fall back to the cached index page.
Returns the response together with the cache after the request. -/
def handleRequest (env : FetchEnv) (req : Req) :
    Option Response × (String → Option Response) :=
  match env.cache req.url with
  | some r => (some r, env.cache)
  | none =>
    match env.net req with
    | some resp =>
      (some resp,
       if req.method = "GET" ∧ resp.ok = true ∧ env.urlOrigin req.url = env.selfOrigin
       then cachePut env.cache req.url resp
       else env.cache)
    | none => (env.cache OFFLINE_URL, env.cache)

/-! ## Helper lemmas -/

theorem normalizeWeightValue_bounds (v : Option ℚ) :
    1/10 ≤ normalizeWeightValue v ∧ normalizeWeightValue v ≤ 10 := by
  cases v <;> simp only [normalizeWeightValue] <;> split_ifs <;>
    constructor <;> linarith

theorem weight_sum_nonneg {es : List Entry} (h : ∀ e ∈ es, 0 < e.weight) :
    0 ≤ (es.map Entry.weight).sum := by
  induction es with
  | nil => simp
  | cons e es ih =>
    simp only [List.map_cons, List.sum_cons]
    have h1 := h e (List.mem_cons_self e es)
    have h2 := ih (fun x hx => h x (List.mem_cons_of_mem e hx))
    linarith

theorem weight_sum_pos {e : Entry} {es : List Entry}
    (h : ∀ x ∈ e :: es, 0 < x.weight) :
    0 < ((e :: es).map Entry.weight).sum := by
  simp only [List.map_cons, List.sum_cons]
  have h1 := h e (List.mem_cons_self e es)
  have h2 := weight_sum_nonneg (fun x hx => h x (List.mem_cons_of_mem e hx))
  linarith

theorem qdiv_le_qdiv {W a b : ℚ} (hW : 0 < W) (h : a ≤ b) : a / W ≤ b / W :=
  (div_le_div_iff_of_pos_right hW).mpr h

theorem qdiv_lt_qdiv {W a b : ℚ} (hW : 0 < W) (h : a < b) : a / W < b / W :=
  (div_lt_div_iff_of_pos_right hW).mpr h

theorem selectScan_map_div {W : ℚ} (hW : 0 < W) :
    ∀ (ws : List ℚ) (t : ℚ),
      selectScan (ws.map (fun w => w / W)) (t / W) = selectScan ws t := by
  intro ws
  induction ws with
  | nil => intro t; rfl
  | cons w ws ih =>
    intro t
    simp only [List.map_cons, selectScan]
    by_cases h : t < w
    · rw [if_pos (qdiv_lt_qdiv hW h), if_pos h]
    · rw [if_neg (fun hc => h ((div_lt_div_iff_of_pos_right hW).mp hc)), if_neg h,
        ← sub_div, ih]

theorem segWidths_segmentsFrom (W : ℚ) :
    ∀ (es : List Entry) (acc : ℚ),
      segWidths (segmentsFrom W es acc) = (es.map Entry.weight).map (fun w => w / W) := by
  intro es
  induction es with
  | nil => intro acc; rfl
  | cons e es ih =>
    intro acc
    simp only [segmentsFrom, segWidths, List.map_cons] at ih ⊢
    rw [ih (acc + e.weight), div_sub_div_same, add_sub_cancel_left]

theorem sum_map_div (W : ℚ) :
    ∀ ws : List ℚ, (ws.map (fun w => w / W)).sum = ws.sum / W := by
  intro ws
  induction ws with
  | nil => simp
  | cons w ws ih => simp [List.sum_cons, ih, add_div]

theorem normAngle_eq_self {θ : ℚ} (h0 : 0 ≤ θ) (h1 : θ < 1) : normAngle θ = θ := by
  have hf : ⌊θ⌋ = 0 := Int.floor_eq_zero_iff.mpr ⟨h0, h1⟩
  simp [normAngle, hf]

theorem segmentsFrom_select_resolve {W : ℚ} (hW : 0 < W) :
    ∀ (es : List Entry) (acc t u2 : ℚ),
      (∀ e ∈ es, 0 < e.weight) → 0 ≤ t → t < (es.map Entry.weight).sum →
      0 ≤ u2 → u2 < 1 →
      ∃ i seg,
        selectScan (es.map Entry.weight) t = some i ∧
        (segmentsFrom W es acc)[i]? = some seg ∧
        es[i]? = some seg.entry ∧
        acc / W ≤ landingOf seg u2 ∧
        landingOf seg u2 < (acc + (es.map Entry.weight).sum) / W ∧
        findSegment (segmentsFrom W es acc) (landingOf seg u2) = some seg := by
  intro es
  induction es with
  | nil =>
    intro acc t u2 _ ht0 htlt _ _
    simp only [List.map_nil, List.sum_nil] at htlt
    linarith
  | cons e0 es ih =>
    intro acc t u2 hpos ht0 htlt hu0 hu1
    have hw0 : 0 < e0.weight := hpos e0 (List.mem_cons_self e0 es)
    have hS : 0 ≤ (es.map Entry.weight).sum :=
      weight_sum_nonneg (fun x hx => hpos x (List.mem_cons_of_mem e0 hx))
    by_cases hcase : t < e0.weight
    · refine ⟨0, ⟨e0, acc / W, (acc + e0.weight) / W⟩, ?_, ?_, ?_, ?_, ?_, ?_⟩
      · simp [selectScan, hcase]
      · simp [segmentsFrom]
      · simp
      · have : 0 ≤ u2 * ((acc + e0.weight) / W - acc / W) := by
          rw [div_sub_div_same, add_sub_cancel_left]
          exact mul_nonneg hu0 (div_pos hw0 hW).le
        simp only [landingOf]
        linarith
      · have hd : (acc + e0.weight) / W - acc / W = e0.weight / W := by
          rw [div_sub_div_same, add_sub_cancel_left]
        have hdpos : 0 < e0.weight / W := div_pos hw0 hW
        have hstep : u2 * (e0.weight / W) < e0.weight / W :=
          (mul_lt_iff_lt_one_left hdpos).mpr hu1
        have h1 : landingOf ⟨e0, acc / W, (acc + e0.weight) / W⟩ u2 < (acc + e0.weight) / W := by
          simp only [landingOf, hd]
          have : acc / W + e0.weight / W = (acc + e0.weight) / W := div_add_div_same acc e0.weight W
          linarith
        have h2 : (acc + e0.weight) / W ≤ (acc + ((e0 :: es).map Entry.weight).sum) / W := by
          apply qdiv_le_qdiv hW
          simp only [List.map_cons, List.sum_cons]
          linarith
        linarith
      · have hlow : acc / W ≤ landingOf ⟨e0, acc / W, (acc + e0.weight) / W⟩ u2 := by
          have : 0 ≤ u2 * ((acc + e0.weight) / W - acc / W) := by
            rw [div_sub_div_same, add_sub_cancel_left]
            exact mul_nonneg hu0 (div_pos hw0 hW).le
          simp only [landingOf]
          linarith
        have hup : landingOf ⟨e0, acc / W, (acc + e0.weight) / W⟩ u2 < (acc + e0.weight) / W := by
          have hd : (acc + e0.weight) / W - acc / W = e0.weight / W := by
            rw [div_sub_div_same, add_sub_cancel_left]
          have hdpos : 0 < e0.weight / W := div_pos hw0 hW
          have hstep : u2 * (e0.weight / W) < e0.weight / W :=
            (mul_lt_iff_lt_one_left hdpos).mpr hu1
          have : acc / W + e0.weight / W = (acc + e0.weight) / W := div_add_div_same acc e0.weight W
          simp only [landingOf, hd]
          linarith
        simp only [segmentsFrom, findSegment]
        rw [if_pos ⟨hlow, hup⟩]
    · have hge : e0.weight ≤ t := not_lt.mp hcase
      have ht0' : 0 ≤ t - e0.weight := by linarith
      have htlt' : t - e0.weight < (es.map Entry.weight).sum := by
        simp only [List.map_cons, List.sum_cons] at htlt
        linarith
      obtain ⟨i, seg, hscan, hget, hent, hlow, hup, hfind⟩ :=
        ih (acc + e0.weight) (t - e0.weight) u2
          (fun x hx => hpos x (List.mem_cons_of_mem e0 hx)) ht0' htlt' hu0 hu1
      refine ⟨i + 1, seg, ?_, ?_, ?_, ?_, ?_, ?_⟩
      · simp [selectScan, hcase, hscan]
      · simpa [segmentsFrom] using hget
      · simpa using hent
      · have : acc / W ≤ (acc + e0.weight) / W := qdiv_le_qdiv hW (by linarith)
        linarith
      · simp only [List.map_cons, List.sum_cons]
        rw [← add_assoc]
        exact hup
      · have hnotin : ¬((acc / W ≤ landingOf seg u2) ∧ landingOf seg u2 < (acc + e0.weight) / W) :=
          fun hc => absurd hc.2 (not_lt.mpr hlow)
        simp only [segmentsFrom, findSegment]
        rw [if_neg hnotin]
        exact hfind

theorem select_resolve_main (entries : List Entry) (u1 u2 : ℚ)
    (hne : entries ≠ []) (hpos : ∀ e ∈ entries, 0 < e.weight)
    (h10 : 0 ≤ u1) (h11 : u1 < 1) (h20 : 0 ≤ u2) (h21 : u2 < 1) :
    ∃ i seg,
      selectIndex (segWidths (buildSegments entries)) u1 = Except.ok i ∧
      (buildSegments entries)[i]? = some seg ∧
      entries[i]? = some seg.entry ∧
      resolveAngle (buildSegments entries) (landingOf seg u2) = some seg := by
  obtain ⟨e0, es0, rfl⟩ : ∃ e l, entries = e :: l := by
    cases entries with
    | nil => exact absurd rfl hne
    | cons e l => exact ⟨e, l, rfl⟩
  have hW : 0 < ((e0 :: es0).map Entry.weight).sum := weight_sum_pos hpos
  have ht0 : 0 ≤ u1 * ((e0 :: es0).map Entry.weight).sum := mul_nonneg h10 hW.le
  have htlt : u1 * ((e0 :: es0).map Entry.weight).sum < ((e0 :: es0).map Entry.weight).sum := by
    nlinarith
  obtain ⟨i, seg, hscan, hget, hent, hlow, hup, hfind⟩ :=
    segmentsFrom_select_resolve hW (e0 :: es0) 0
      (u1 * ((e0 :: es0).map Entry.weight).sum) u2 hpos ht0 htlt h20 h21
  have hwidths : segWidths (buildSegments (e0 :: es0)) =
      ((e0 :: es0).map Entry.weight).map
        (fun w => w / ((e0 :: es0).map Entry.weight).sum) :=
    segWidths_segmentsFrom _ (e0 :: es0) 0
  have hsum1 : (segWidths (buildSegments (e0 :: es0))).sum = 1 := by
    rw [hwidths, sum_map_div, div_self (ne_of_gt hW)]
  have hscan' : selectScan (segWidths (buildSegments (e0 :: es0))) u1 = some i := by
    have hu1W : u1 * ((e0 :: es0).map Entry.weight).sum / ((e0 :: es0).map Entry.weight).sum = u1 :=
      mul_div_cancel_right₀ u1 (ne_of_gt hW)
    rw [hwidths, ← hu1W, selectScan_map_div hW]
    exact hscan
  have hguard : ¬(segWidths (buildSegments (e0 :: es0)) = [] ∨
      ∀ w ∈ segWidths (buildSegments (e0 :: es0)), w = 0) := by
    intro hor
    rcases hor with hnil | hzero
    · rw [hwidths] at hnil
      simp at hnil
    · have hmem : e0.weight / ((e0 :: es0).map Entry.weight).sum ∈
          segWidths (buildSegments (e0 :: es0)) := by
        rw [hwidths]
        simp
      have := hzero _ hmem
      have hw0 : 0 < e0.weight := hpos e0 (List.mem_cons_self e0 es0)
      exact absurd this (ne_of_gt (div_pos hw0 hW))
  have hsel : selectIndex (segWidths (buildSegments (e0 :: es0))) u1 = Except.ok i := by
    rw [selectIndex, if_neg hguard, hsum1, mul_one, hscan']
    rfl
  have h0le : 0 ≤ landingOf seg u2 := by
    rw [zero_div] at hlow
    exact hlow
  have hlt1 : landingOf seg u2 < 1 := by
    rw [zero_add, div_self (ne_of_gt hW)] at hup
    exact hup
  refine ⟨i, seg, hsel, hget, hent, ?_⟩
  rw [resolveAngle, normAngle_eq_self h0le hlt1]
  exact hfind

theorem start_of_ok (cfg : DurCfg) (w : SWheel) (c : Controller)
    (u1 u2 th dh : ℚ) (i : Nat) (seg : Segment)
    (hphase : c.phase = Phase.Idle ∨ c.phase = Phase.Settled)
    (hsel : selectIndex (segWidths w.segments) u1 = Except.ok i)
    (hget : w.segments[i]? = some seg) :
    Controller.start cfg w c u1 u2 th dh =
      (⟨Phase.Spinning, some i, some (landingOf seg u2),
        some (normalizeDurations cfg th dh), none⟩,
       some (normalizeDurations cfg th dh),
       [SWEvent.stateChange true true]) := by
  have hne : w.segments ≠ [] := by
    intro hnil
    rw [hnil] at hget
    simp at hget
  have hhs : w.hasSegments = true := by
    simp [SWheel.hasSegments, hne]
  rcases hphase with hp | hp <;>
    simp [Controller.start, hhs, hp, hsel, hget]

/-! ## Claim theorems -/

/-- C1: for every animation run, the entry resolved by the Segment Wheel at
finalize equals the target entry committed when `start()` was called,
regardless of when (or whether) `requestDecel` is issued during the run,
for any fixed injected random source. -/
theorem runAnimation_winner_eq_committedTarget
    (cfg : DurCfg) (entries : List Entry) (u1 u2 th dh : ℚ)
    (req : Option (ℚ × ℚ))
    (hne : entries ≠ []) (hpos : ∀ e ∈ entries, 0 < e.weight)
    (h10 : 0 ≤ u1) (h11 : u1 < 1) (h20 : 0 ≤ u2) (h21 : u2 < 1) :
    (committedTarget cfg entries u1 u2 th dh).isSome = true ∧
    runAnimation cfg entries u1 u2 th dh req =
      committedTarget cfg entries u1 u2 th dh := by
  obtain ⟨i, seg, hsel, hget, hent, hres⟩ :=
    select_resolve_main entries u1 u2 hne hpos h10 h11 h20 h21
  have hstart := start_of_ok cfg ⟨buildSegments entries⟩ Controller.idle u1 u2 th dh
    i seg (Or.inl rfl) hsel hget
  constructor
  · rw [committedTarget, hstart]
    simp [hent]
  · rw [committedTarget, runAnimation, hstart]
    cases req with
    | none =>
      simp [autoDecel, Controller.finalize, hres, hent]
    | some r =>
      simp [Controller.requestDecel, autoDecel, Controller.finalize, hres, hent]

/-- C1 witness: a concrete two-entry run with an early stop request. -/
theorem runAnimation_winner_eq_committedTarget_witness :
    (committedTarget ⟨1, 60⟩ [⟨"A", 1⟩, ⟨"B", 3⟩] (1/2) (1/2) 0 100).isSome = true ∧
    runAnimation ⟨1, 60⟩ [⟨"A", 1⟩, ⟨"B", 3⟩] (1/2) (1/2) 0 100 (some (2, 3)) =
      committedTarget ⟨1, 60⟩ [⟨"A", 1⟩, ⟨"B", 3⟩] (1/2) (1/2) 0 100 :=
  runAnimation_winner_eq_committedTarget ⟨1, 60⟩ [⟨"A", 1⟩, ⟨"B", 3⟩]
    (1/2) (1/2) 0 100 (some (2, 3))
    (by simp)
    (by intro e he; fin_cases he <;> norm_num)
    (by norm_num) (by norm_num) (by norm_num) (by norm_num)

/-- C6: whenever `start()` returns an effective schedule, both durations are
clamped into the configured minimum/maximum bounds and `decel ≤ total`. -/
theorem start_durations_clamped (cfg : DurCfg) (w : SWheel) (c : Controller)
    (u1 u2 th dh : ℚ) (sched : Schedule)
    (hcfg : cfg.minDur ≤ cfg.maxDur)
    (hs : (Controller.start cfg w c u1 u2 th dh).2.1 = some sched) :
    cfg.minDur ≤ sched.total ∧ sched.total ≤ cfg.maxDur ∧
    cfg.minDur ≤ sched.decel ∧ sched.decel ≤ cfg.maxDur ∧
    sched.decel ≤ sched.total := by
  have hsched : sched = normalizeDurations cfg th dh := by
    simp only [Controller.start] at hs
    split at hs
    · simp at hs
    · split at hs
      · simp at hs
      · split at hs
        · simp at hs
        · split at hs
          · simp at hs
          · simp at hs
            exact hs.symm
  subst hsched
  simp only [normalizeDurations, clampDur]
  refine ⟨le_max_left _ _, max_le hcfg (min_le_left _ _),
    le_min (le_max_left _ _) (le_max_left _ _),
    le_trans (min_le_left _ _) (max_le hcfg (min_le_left _ _)),
    min_le_right _ _⟩

/-- C6 witness: `start(0, 100)` with bounds `[1, 60]` on a one-entry wheel
yields the schedule `{total := 1, decel := 1}`, inside the bounds. -/
theorem start_durations_clamped_witness :
    ((1:ℚ) ≤ 60 ∧
     (Controller.start ⟨1, 60⟩ ⟨buildSegments [⟨"A", 1⟩]⟩ Controller.idle
        0 0 0 100).2.1 = some ⟨1, 1⟩) ∧
    ((1:ℚ) ≤ (⟨1, 1⟩ : Schedule).total ∧ (⟨1, 1⟩ : Schedule).total ≤ 60 ∧
     (1:ℚ) ≤ (⟨1, 1⟩ : Schedule).decel ∧ (⟨1, 1⟩ : Schedule).decel ≤ 60 ∧
     (⟨1, 1⟩ : Schedule).decel ≤ (⟨1, 1⟩ : Schedule).total) := by
  have hs : (Controller.start ⟨1, 60⟩ ⟨buildSegments [⟨"A", 1⟩]⟩ Controller.idle
      0 0 0 100).2.1 = some ⟨1, 1⟩ := by
    norm_num [Controller.start, Controller.idle, buildSegments, segmentsFrom,
      segWidths, SWheel.hasSegments, selectIndex, selectScan,
      normalizeDurations, clampDur]
    rw [if_neg (by simp)]
  exact ⟨⟨by norm_num, hs⟩,
    start_durations_clamped ⟨1, 60⟩ ⟨buildSegments [⟨"A", 1⟩]⟩ Controller.idle
      0 0 0 100 ⟨1, 1⟩ (by norm_num) hs⟩

/-- C7: calling `start()` when the wheel has zero segments is a silent
no-op — no schedule is returned, the controller remains `Idle`, and no
notification fires. -/
theorem start_zero_segments_noop (cfg : DurCfg) (w : SWheel) (c : Controller)
    (u1 u2 th dh : ℚ) (hw : w.segments = []) (hc : c.phase = Phase.Idle) :
    Controller.start cfg w c u1 u2 th dh = (c, none, []) ∧
    (Controller.start cfg w c u1 u2 th dh).1.phase = Phase.Idle := by
  have hhs : w.hasSegments = false := by simp [SWheel.hasSegments, hw]
  constructor
  · simp [Controller.start, hhs]
  · simp [Controller.start, hhs, hc]

/-- C7 witness: a concrete empty wheel from the idle controller. -/
theorem start_zero_segments_noop_witness :
    Controller.start ⟨1, 60⟩ ⟨[]⟩ Controller.idle 0 0 0 100 =
      (Controller.idle, none, []) ∧
    (Controller.start ⟨1, 60⟩ ⟨[]⟩ Controller.idle 0 0 0 100).1.phase = Phase.Idle :=
  start_zero_segments_noop ⟨1, 60⟩ ⟨[]⟩ Controller.idle 0 0 0 100 rfl rfl

/-- C2: `normalizeWeightValue` always returns a weight in `[0.1, 10]`:
values below `0.1` map to `0.1`, values above `10` map to `10`, values
inside the band are returned unchanged, and input that is `NaN` after
parsing maps to `1`. -/
theorem normalizeWeightValue_spec (v : Option ℚ) :
    (1/10 ≤ normalizeWeightValue v ∧ normalizeWeightValue v ≤ 10) ∧
    (∀ q, v = some q → q < 1/10 → normalizeWeightValue v = 1/10) ∧
    (∀ q, v = some q → 10 < q → normalizeWeightValue v = 10) ∧
    (∀ q, v = some q → 1/10 ≤ q → q ≤ 10 → normalizeWeightValue v = q) ∧
    (v = none → normalizeWeightValue v = 1) := by
  refine ⟨normalizeWeightValue_bounds v, ?_, ?_, ?_, ?_⟩
  · rintro q rfl hq
    simp only [normalizeWeightValue]
    split_ifs <;> linarith
  · rintro q rfl hq
    simp only [normalizeWeightValue]
    split_ifs <;> linarith
  · rintro q rfl hq1 hq2
    simp only [normalizeWeightValue]
    split_ifs <;> linarith
  · rintro rfl
    simp only [normalizeWeightValue]
    split_ifs <;> linarith

/-- C2 witness: a value below the band clamps up to `0.1`. -/
theorem normalizeWeightValue_spec_witness :
    (some (1/20 : ℚ) = some (1/20 : ℚ) ∧ (1/20 : ℚ) < 1/10) ∧
    normalizeWeightValue (some (1/20)) = 1/10 :=
  ⟨⟨rfl, by norm_num⟩,
   (normalizeWeightValue_spec (some (1/20))).2.1 (1/20) rfl (by norm_num)⟩

/-- C3: `getActiveEntries` returns exactly the enabled entries, in the
order of `state.names`, each weight passed through
`normalizeWeightValue` and hence in `[0.1, 10]`; the shared state is
not mutated (the embedding is a pure function of the state). -/
theorem getActiveEntries_spec (s : AppState) :
    getActiveEntries s =
      (s.names.filter (fun n => s.onMap n)).map
        (fun n => ⟨n, normalizeWeightValue (s.weight n)⟩) ∧
    ∀ e ∈ getActiveEntries s, 1/10 ≤ e.weight ∧ e.weight ≤ 10 := by
  have hgo : ∀ ns : List String,
      getActiveEntriesGo s ns =
        (ns.filter (fun n => s.onMap n)).map
          (fun n => ⟨n, normalizeWeightValue (s.weight n)⟩) := by
    intro ns
    induction ns with
    | nil => rfl
    | cons n ns ih =>
      by_cases h : s.onMap n <;>
        simp [getActiveEntriesGo, List.filter_cons, h, ih]
  constructor
  · exact hgo s.names
  · intro e he
    rw [getActiveEntries, hgo] at he
    obtain ⟨n, _, rfl⟩ := List.mem_map.mp he
    exact normalizeWeightValue_bounds (s.weight n)

/-- C3 witness: in a two-name state with only `"A"` enabled, the entry
for `"A"` is produced and its weight is in the band. -/
theorem getActiveEntries_spec_witness :
    (⟨"A", normalizeWeightValue (some 5)⟩ : Entry) ∈
      getActiveEntries ⟨["A", "B"], fun n => n == "A", fun _ => some 5⟩ ∧
    (1/10 ≤ (⟨"A", normalizeWeightValue (some 5)⟩ : Entry).weight ∧
     (⟨"A", normalizeWeightValue (some 5)⟩ : Entry).weight ≤ 10) := by
  have hmem : (⟨"A", normalizeWeightValue (some 5)⟩ : Entry) ∈
      getActiveEntries ⟨["A", "B"], fun n => n == "A", fun _ => some 5⟩ := by
    simp [getActiveEntries, getActiveEntriesGo]
  exact ⟨hmem, (getActiveEntries_spec _).2 _ hmem⟩

/-- C4: the Weighted Selector with weights `[1,1,1,1]` and
`u = 0.0, 0.24, 0.26, 0.49, 0.51, 0.99` returns indices
`0, 0, 1, 1, 2, 3` (cumulative-sum scan with half-open buckets), and
fails with `InvalidInput` when the weight sequence is empty or all
weights are zero. -/
theorem selectIndex_spec :
    (selectIndex [1, 1, 1, 1] 0 = Except.ok 0 ∧
     selectIndex [1, 1, 1, 1] (24/100) = Except.ok 0 ∧
     selectIndex [1, 1, 1, 1] (26/100) = Except.ok 1 ∧
     selectIndex [1, 1, 1, 1] (49/100) = Except.ok 1 ∧
     selectIndex [1, 1, 1, 1] (51/100) = Except.ok 2 ∧
     selectIndex [1, 1, 1, 1] (99/100) = Except.ok 3) ∧
    (∀ u : ℚ, selectIndex [] u = Except.error SelectorError.InvalidInput) ∧
    (∀ ws : List ℚ, ∀ u : ℚ, (∀ w ∈ ws, w = 0) →
      selectIndex ws u = Except.error SelectorError.InvalidInput) := by
  refine ⟨⟨?_, ?_, ?_, ?_, ?_, ?_⟩, ?_, ?_⟩
  · rw [selectIndex, if_neg (by simp)]; norm_num [selectScan]
  · rw [selectIndex, if_neg (by simp)]; norm_num [selectScan]
  · rw [selectIndex, if_neg (by simp)]; norm_num [selectScan]
  · rw [selectIndex, if_neg (by simp)]; norm_num [selectScan]
  · rw [selectIndex, if_neg (by simp)]; norm_num [selectScan]
  · rw [selectIndex, if_neg (by simp)]; norm_num [selectScan]
  · intro u; rw [selectIndex, if_pos (Or.inl rfl)]
  · intro ws u h; rw [selectIndex, if_pos (Or.inr h)]

/-- C4 witness: a nonempty all-zero weight sequence is rejected. -/
theorem selectIndex_spec_witness :
    (∀ w ∈ ([0, 0] : List ℚ), w = 0) ∧
    selectIndex [0, 0] (1/2) = Except.error SelectorError.InvalidInput := by
  have h : ∀ w ∈ ([0, 0] : List ℚ), w = 0 := by
    intro w hw; fin_cases hw <;> rfl
  exact ⟨h, selectIndex_spec.2.2 [0, 0] (1/2) h⟩

/-- C5: the fetch handler returns the cached response whenever one
exists (independently of the network), consults the network only
otherwise, and when the network fetch fails it returns the cached index
page as the fallback. -/
theorem handleRequest_spec (env : FetchEnv) (req : Req) :
    (∀ r, env.cache req.url = some r → ∀ net2,
      handleRequest ⟨env.cache, net2, env.urlOrigin, env.selfOrigin⟩ req =
        (some r, env.cache)) ∧
    (env.cache req.url = none → ∀ resp, env.net req = some resp →
      (handleRequest env req).1 = some resp) ∧
    (env.cache req.url = none → env.net req = none →
      (handleRequest env req).1 = env.cache OFFLINE_URL) := by
  refine ⟨?_, ?_, ?_⟩
  · intro r hr net2
    simp [handleRequest, hr]
  · intro hc resp hn
    simp [handleRequest, hc, hn]
  · intro hc hn
    simp [handleRequest, hc, hn]

/-- C5 witness: a cached URL is served from the cache even when the
network is down. -/
theorem handleRequest_spec_witness :
    ((fun u => if u = "./app.js" then some (⟨true, "body"⟩ : Response) else none)
        "./app.js" = some ⟨true, "body"⟩) ∧
    handleRequest
      ⟨(fun u => if u = "./app.js" then some ⟨true, "body"⟩ else none),
       (fun _ => none), (fun _ => "origin"), "origin"⟩ ⟨"GET", "./app.js"⟩ =
      (some ⟨true, "body"⟩,
       (fun u => if u = "./app.js" then some ⟨true, "body"⟩ else none)) := by
  have hr : (fun u => if u = "./app.js" then some (⟨true, "body"⟩ : Response) else none)
      "./app.js" = some ⟨true, "body"⟩ := by simp
  exact ⟨hr,
    (handleRequest_spec
      ⟨(fun u => if u = "./app.js" then some ⟨true, "body"⟩ else none),
       (fun _ => none), (fun _ => "origin"), "origin"⟩ ⟨"GET", "./app.js"⟩).1
      ⟨true, "body"⟩ hr (fun _ => none)⟩

/-- C8: `addCharacter` returns `false` and leaves the state unchanged
when the name trims to the empty string; otherwise it appends the
trimmed name, enables it, stores the weight normalized into
`[0.1, 10]`, and returns `true`. -/
theorem addCharacter_spec (s : AppState) (name : Option String) (w : Option ℚ) :
    (jsTrim (name.getD "") = "" → addCharacter s name w = (false, s)) ∧
    (jsTrim (name.getD "") ≠ "" →
      (addCharacter s name w).1 = true ∧
      (addCharacter s name w).2.names = s.names ++ [jsTrim (name.getD "")] ∧
      (addCharacter s name w).2.onMap (jsTrim (name.getD "")) = true ∧
      (addCharacter s name w).2.weight (jsTrim (name.getD "")) =
        some (normalizeWeightValue w) ∧
      1/10 ≤ normalizeWeightValue w ∧ normalizeWeightValue w ≤ 10) := by
  constructor
  · intro h
    simp [addCharacter, h]
  · intro h
    refine ⟨?_, ?_, ?_, ?_, (normalizeWeightValue_bounds w).1,
      (normalizeWeightValue_bounds w).2⟩ <;>
      simp [addCharacter, h]

/-- C8 witness: a whitespace-only name is rejected without touching the
state. -/
theorem addCharacter_spec_witness :
    jsTrim ((some "  ").getD "") = "" ∧
    addCharacter ⟨[], fun _ => false, fun _ => none⟩ (some "  ") (some 1) =
      (false, ⟨[], fun _ => false, fun _ => none⟩) := by
  have h : jsTrim ((some "  ").getD "") = "" := rfl
  exact ⟨h, (addCharacter_spec ⟨[], fun _ => false, fun _ => none⟩ (some "  ") (some 1)).1 h⟩

/-- C9: `applyPreset` on a non-preset key returns `false` and leaves
the state completely unchanged; on a preset key it returns `true` and
replaces the state so that `names` is a copy of the preset list, every
listed name is enabled, and every listed weight is `1`. -/
theorem applyPreset_spec (s : AppState) (key : String) :
    (presetLookup key = none → applyPreset s key = (false, s)) ∧
    (∀ list, presetLookup key = some list →
      (applyPreset s key).1 = true ∧
      (applyPreset s key).2.names = list ∧
      ∀ n ∈ list, (applyPreset s key).2.onMap n = true ∧
        (applyPreset s key).2.weight n = some 1) := by
  constructor
  · intro h
    simp [applyPreset, h]
  · intro list h
    refine ⟨by simp [applyPreset, h], by simp [applyPreset, h, presetApplied], ?_⟩
    intro n hn
    have hc : list.contains n = true := by
      simpa using hn
    simp [applyPreset, h, presetApplied, hc, hn]

/-- C9 witness: an unknown key is rejected and the state is kept. -/
theorem applyPreset_spec_witness :
    presetLookup "no-such-preset" = none ∧
    applyPreset ⟨["X"], fun _ => true, fun _ => some 2⟩ "no-such-preset" =
      (false, ⟨["X"], fun _ => true, fun _ => some 2⟩) := by
  have h : presetLookup "no-such-preset" = none := rfl
  exact ⟨h, (applyPreset_spec ⟨["X"], fun _ => true, fun _ => some 2⟩ "no-such-preset").1 h⟩

theorem zip_self_all_beq (l : List String) :
    (l.zip l).all (fun p => p.1 == p.2) = true := by
  induction l with
  | nil => rfl
  | cons a l ih => simp [List.zip_cons_cons, ih]

theorem presetMatches_applied (list : List String) :
    presetMatches (presetApplied list) list = true := by
  simp only [presetMatches, presetApplied, Bool.and_eq_true]
  refine ⟨⟨by simp, zip_self_all_beq list⟩, ?_⟩
  rw [List.all_eq_true]
  intro n hn
  have hc : list.contains n = true := by simpa using hn
  have h1 : normalizeWeightValue (some 1) = 1 := by
    simp only [normalizeWeightValue]
    split_ifs <;> linarith
  simp [hc, h1, hn]

theorem presetMatches_len_ne (s : AppState) (list : List String)
    (h : list.length ≠ s.names.length) : presetMatches s list = false := by
  have hlen : (list.length == s.names.length) = false := by simpa using h
  simp [presetMatches, hlen]

/-- C10: immediately after a successful `applyPreset key`,
`findMatchingPresetKey` returns that same key. -/
theorem applyPreset_roundtrip (s : AppState) (key : String) (list : List String)
    (h : presetLookup key = some list) :
    findMatchingPresetKey (applyPreset s key).2 = some key := by
  have happ : (applyPreset s key).2 = presetApplied list := by
    simp [applyPreset, h]
  rw [happ]
  simp only [presetLookup] at h
  split_ifs at h with h1 h2 h3 h4
  · subst h1
    obtain rfl : omgList = list := by simpa using h
    simp [findMatchingPresetKey, PRESETS, matchGo, presetMatches_applied]
  · subst h2
    obtain rfl : oratanList = list := by simpa using h
    have hOMG : presetMatches (presetApplied oratanList) omgList = false :=
      presetMatches_len_ne _ _ (by decide)
    simp [findMatchingPresetKey, PRESETS, matchGo, hOMG, presetMatches_applied]
  · subst h3
    obtain rfl : forceList = list := by simpa using h
    have hOMG : presetMatches (presetApplied forceList) omgList = false :=
      presetMatches_len_ne _ _ (by decide)
    have hOra : presetMatches (presetApplied forceList) oratanList = false :=
      presetMatches_len_ne _ _ (by decide)
    simp [findMatchingPresetKey, PRESETS, matchGo, hOMG, hOra, presetMatches_applied]
  · subst h4
    obtain rfl : kinshoList = list := by simpa using h
    have hOMG : presetMatches (presetApplied kinshoList) omgList = false :=
      presetMatches_len_ne _ _ (by decide)
    have hOra : presetMatches (presetApplied kinshoList) oratanList = false :=
      presetMatches_len_ne _ _ (by decide)
    have hFor : presetMatches (presetApplied kinshoList) forceList = false :=
      presetMatches_len_ne _ _ (by decide)
    simp [findMatchingPresetKey, PRESETS, matchGo, hOMG, hOra, hFor, presetMatches_applied]

/-- C10 witness: applying the `OMG` preset and reading the matching key
back. -/
theorem applyPreset_roundtrip_witness :
    presetLookup "OMG" = some omgList ∧
    findMatchingPresetKey
      (applyPreset ⟨[], fun _ => false, fun _ => none⟩ "OMG").2 = some "OMG" :=
  ⟨rfl, applyPreset_roundtrip ⟨[], fun _ => false, fun _ => none⟩ "OMG" omgList rfl⟩

end Roulette
